import Mathlib

/-!
Shallow embedding of `frame/support/src/executor.rs` (a weight-budgeted
single-pass task executor) together with theorems settling the spec claims.

Modelling conventions:
* `Weight` is `u64` in the source.  The executor core performs only
  saturating subtraction, zero tests and comparisons on weights (never
  addition or multiplication), so no overflow can occur and `Nat` with
  truncated subtraction (which coincides with `saturating_sub`) is a
  faithful model.
* A `RuntimeTask` implementation is modelled as an arbitrary function
  `exec : T → Nat → Option T × Nat` (the trait method
  `fn execute(self, max_weight: Weight) -> (Option<Self>, Weight)`).
* `Vec<Task>` is `List T`; `Vec::push` is append at the tail,
  `Vec::remove(i)` is `List.eraseIdx`.
* The `Quota: Get<Weight>` provider is modelled by passing the cap it
  returns as an explicit argument to `execute`.
-/

namespace Substrate

universe u

variable {T : Type u}

/-- Running walk of `single_pass` (the `filter_map` loop with the mutable
`leftover_weight`, lines 268–281 of `executor.rs`): given the remaining
budget, each task is either kept untouched (budget exhausted) or executed
with the current leftover, which is then reduced by saturating
subtraction.  Returns the surviving tasks and the final leftover. -/
def singlePassGo (exec : T → Nat → Option T × Nat) :
    List T → Nat → List T × Nat
  | [], leftover => ([], leftover)
  | t :: ts, leftover =>
    if leftover = 0 then
      let r := singlePassGo exec ts leftover
      (t :: r.1, r.2)
    else
      let step := exec t leftover
      let r := singlePassGo exec ts (leftover - step.2)
      (match step.1 with
        | some t2 => t2 :: r.1
        | none => r.1, r.2)

/-- Embedding of `single_pass` (`executor.rs` lines 262–291): short-circuit
on an empty queue or a zero budget, otherwise walk the queue once and
report `max_weight ⊖ leftover` as consumed. -/
def single_pass (exec : T → Nat → Option T × Nat) (tasks : List T)
    (max_weight : Nat) : List T × Nat :=
  if tasks.isEmpty || max_weight == 0 then
    (tasks, 0)
  else
    let r := singlePassGo exec tasks max_weight
    (r.1, max_weight - r.2)

/-- Embedding of the `SinglePassExecutor` struct (`executor.rs` lines
152–157): the task queue.  The `PhantomData<Quota>` marker field carries
no data (and encodes to no bytes), so it is omitted from the state. -/
structure SinglePassExecutor (T : Type u) where
  tasks : List T
deriving DecidableEq

/-- Embedding of `StoredExecutor::new` for `SinglePassExecutor`. -/
def SinglePassExecutor.new : SinglePassExecutor T := ⟨[]⟩

/-- Embedding of `add_task`: `self.tasks.push(task)`. -/
def SinglePassExecutor.addTask (s : SinglePassExecutor T) (task : T) :
    SinglePassExecutor T :=
  ⟨s.tasks ++ [task]⟩

/-- Embedding of `clear`: `self.tasks.clear()`. -/
def SinglePassExecutor.clear (_s : SinglePassExecutor T) :
    SinglePassExecutor T :=
  ⟨[]⟩

/-- Embedding of `count`: `self.tasks.len()`. -/
def SinglePassExecutor.count (s : SinglePassExecutor T) : Nat :=
  s.tasks.length

/-- Embedding of `self.tasks.iter().position(|t| t == &task)`: index of the
first element equal to `task`, if any. -/
def findPos [DecidableEq T] (task : T) : List T → Option Nat
  | [] => none
  | x :: xs =>
    if x = task then some 0 else (findPos task xs).map (· + 1)

/-- Embedding of `remove` (`executor.rs` lines 182–187): find the first
queue element equal to `task` and, when present, remove it at that index. -/
def SinglePassExecutor.remove [DecidableEq T] (s : SinglePassExecutor T)
    (task : T) : SinglePassExecutor T :=
  match findPos task s.tasks with
  | some index => ⟨s.tasks.eraseIdx index⟩
  | none => s

/-- Embedding of `execute` (`executor.rs` lines 198–203): read the cap the
`Quota` provider returns (passed here as `max_weight`), delegate to
`single_pass` on the current queue, store the survivors back and return
the consumed weight. -/
def SinglePassExecutor.execute (exec : T → Nat → Option T × Nat)
    (max_weight : Nat) (s : SinglePassExecutor T) :
    SinglePassExecutor T × Nat :=
  let r := single_pass exec s.tasks max_weight
  (⟨r.1⟩, r.2)

/-- Embedding of the reference test `Task` struct (`executor.rs` lines
302–318): `weight` is the remaining work, `half` the fractional-progress
counter (a `u8` in the source; it is only ever decremented when nonzero,
so `Nat` is faithful), `greedy` the all-or-nothing switch. -/
structure Task where
  weight : Nat
  half : Nat
  greedy : Bool
deriving DecidableEq

/-- Embedding of `Task::maybe_destroy` (`executor.rs` lines 350–356): keep
the task exactly when weight remains. -/
def Task.maybeDestroy (t : Task) : Option Task :=
  if t.weight > 0 then some t else none

/-- Embedding of `Task::consume` (`executor.rs` lines 359–382): consume
`amount` of the task's weight, capped at `max_weight`; a non-greedy task
consumes nothing when the cap does not cover the full amount. -/
def Task.consume (t : Task) (amount max_weight : Nat) :
    Option Task × Nat :=
  if t.greedy then
    if amount > max_weight then
      ({ t with weight := t.weight - max_weight }.maybeDestroy, max_weight)
    else
      ({ t with weight := t.weight - amount }.maybeDestroy, amount)
  else
    if amount > max_weight then
      (t.maybeDestroy, 0)
    else
      ({ t with weight := t.weight - amount }.maybeDestroy, amount)

/-- Embedding of `RuntimeTask::execute` for `Task` (`executor.rs` lines
385–400): with `half = 0` try to consume the whole remaining weight,
otherwise decrement `half` and try to consume half of it. -/
def Task.execute (t : Task) (max_weight : Nat) : Option Task × Nat :=
  let weight_needed := t.weight
  if t.half = 0 then
    t.consume weight_needed max_weight
  else
    { t with half := t.half - 1 }.consume (weight_needed / 2) max_weight

/-- Sum of the remaining weights of a task queue (the quantity tracked by
`remaining_weights_of` in the test suite). -/
def sumWeights (ts : List Task) : Nat :=
  (ts.map Task.weight).sum

/-- Modelled from the spec: the host codec (`parity-scale-codec`, outside
this repository) encodes a `Compact<u32>` as a variable-length
little-endian integer whose two low bits of the first byte select the
mode: `0` single byte, `1` two bytes, `2` four bytes, `3` big-integer mode
whose first byte stores the byte count minus four (always four further
bytes for a `u32` above `2^30`). -/
def compactEncode (n : Nat) : List Nat :=
  if n < 64 then
    [n * 4]
  else if n < 16384 then
    [(n * 4 + 1) % 256, (n * 4 + 1) / 256]
  else if n < 1073741824 then
    [(n * 4 + 2) % 256, (n * 4 + 2) / 256 % 256,
      (n * 4 + 2) / 65536 % 256, (n * 4 + 2) / 16777216]
  else
    [3, n % 256, n / 256 % 256, n / 65536 % 256, n / 16777216 % 256]

/-- Little-endian read of `k` bytes from the front of a byte stream,
returning the decoded value and the remaining bytes. -/
def decodeLE : Nat → List Nat → Option (Nat × List Nat)
  | 0, rest => some (0, rest)
  | _ + 1, [] => none
  | k + 1, b :: rest =>
    match decodeLE k rest with
    | some (v, rest2) => some (b + v * 256, rest2)
    | none => none

/-- Modelled from the spec: decoding of a `Compact<u32>` by the host codec,
inverse of `compactEncode` on its four modes. -/
def compactDecode : List Nat → Option (Nat × List Nat)
  | [] => none
  | b :: rest =>
    if b % 4 = 0 then
      some (b / 4, rest)
    else if b % 4 = 1 then
      match rest with
      | b2 :: rest2 => some ((b + b2 * 256) / 4, rest2)
      | [] => none
    else if b % 4 = 2 then
      match rest with
      | b2 :: b3 :: b4 :: rest4 =>
        some ((b + b2 * 256 + b3 * 65536 + b4 * 16777216) / 4, rest4)
      | _ => none
    else
      match decodeLE (b / 4 + 4) rest with
      | some (v, rest2) => some (v, rest2)
      | none => none

/-- Modelled from the spec: the host codec's encoding of `Vec<Task>` — the
compact `u32` element count followed by the concatenated encodings of the
elements in order (`taskEnc` stands for the opaque task codec). -/
def encodeVec (taskEnc : T → List Nat) (ts : List T) : List Nat :=
  compactEncode ts.length ++ (ts.map taskEnc).flatten

/-- Modelled from the spec: `PhantomData` encodes to zero bytes under the
host codec. -/
def encodePhantom : List Nat := []

/-- Encoding of `SinglePassExecutor` as produced by the derived `Encode`
(`executor.rs` line 152): concatenation of the encodings of its two
fields, the task vector and the phantom marker. -/
def encodeExecutor (taskEnc : T → List Nat) (s : SinglePassExecutor T) :
    List Nat :=
  encodeVec taskEnc s.tasks ++ encodePhantom

/-- Embedding of `DecodeLength::len` for `SinglePassExecutor`
(`executor.rs` lines 224–236): decode only the leading `Compact<u32>` of
the serialized form and return it as the length. -/
def decodeLength (self_encoded : List Nat) : Option Nat :=
  match compactDecode self_encoded with
  | some (n, _) => some n
  | none => none

/-! Helper lemmas about the single-pass walk. -/

/-- A walk started with a zero budget keeps every task and the budget. -/
theorem singlePassGo_zero (exec : T → Nat → Option T × Nat)
    (ts : List T) : singlePassGo exec ts 0 = (ts, 0) := by
  induction ts with
  | nil => rfl
  | cons t ts ih => simp [singlePassGo, ih]

/-- The leftover budget after the walk never exceeds the initial budget. -/
theorem singlePassGo_leftover_le (exec : T → Nat → Option T × Nat)
    (ts : List T) (w : Nat) : (singlePassGo exec ts w).2 ≤ w := by
  induction ts generalizing w with
  | nil => simp [singlePassGo]
  | cons t ts ih =>
    by_cases hw : w = 0
    · subst hw
      simp [singlePassGo_zero]
    · simp only [singlePassGo, if_neg hw]
      exact le_trans (ih (w - (exec t w).2)) (Nat.sub_le _ _)

/-- The walk never lengthens the task list. -/
theorem singlePassGo_length_le (exec : T → Nat → Option T × Nat)
    (ts : List T) (w : Nat) :
    (singlePassGo exec ts w).1.length ≤ ts.length := by
  induction ts generalizing w with
  | nil => simp [singlePassGo]
  | cons t ts ih =>
    by_cases hw : w = 0
    · subst hw
      simp [singlePassGo_zero]
    · simp only [singlePassGo, if_neg hw]
      cases hstep : (exec t w).1 with
      | some t2 => simpa using ih (w - (exec t w).2)
      | none => simpa using Nat.le_succ_of_le (ih (w - (exec t w).2))

/-- C1: for every task list and budget, `single_pass` reports exactly
`max_weight − leftover` as consumed, which never exceeds `max_weight`,
with no precondition on the tasks' own consumption reports; the same
bound holds for the consumed weight returned by
`SinglePassExecutor.execute`. -/
theorem single_pass_budget_respected (exec : T → Nat → Option T × Nat)
    (tasks : List T) (max_weight : Nat) (s : SinglePassExecutor T) :
    (single_pass exec tasks max_weight).2 =
      max_weight - (singlePassGo exec tasks max_weight).2 ∧
    (single_pass exec tasks max_weight).2 ≤ max_weight ∧
    (SinglePassExecutor.execute exec max_weight s).2 ≤ max_weight := by
  have key : ∀ l : List T,
      (single_pass exec l max_weight).2 =
        max_weight - (singlePassGo exec l max_weight).2 := by
    intro l
    by_cases hcond : l.isEmpty || max_weight == 0
    · rcases Bool.or_eq_true_iff.mp hcond with h | h
      · have : l = [] := List.isEmpty_iff.mp h
        subst this
        simp [single_pass, singlePassGo]
      · have : max_weight = 0 := by simpa using h
        subst this
        simp [single_pass, singlePassGo_zero]
    · simp [single_pass, hcond]
  refine ⟨key tasks, ?_, ?_⟩
  · rw [key tasks]
    exact Nat.sub_le _ _
  · show (single_pass exec s.tasks max_weight).2 ≤ max_weight
    rw [key s.tasks]
    exact Nat.sub_le _ _

/-- C2: with an empty queue or a zero budget, `single_pass` returns the
queue untouched and zero consumption — for every task implementation
`exec`, i.e. without invoking any task — and `execute` leaves the
executor state unchanged while returning zero. -/
theorem single_pass_trivial_short_circuit (exec : T → Nat → Option T × Nat)
    (tasks : List T) (max_weight : Nat)
    (h : tasks = [] ∨ max_weight = 0) :
    single_pass exec tasks max_weight = (tasks, 0) ∧
    ∀ s : SinglePassExecutor T, s.tasks = tasks →
      SinglePassExecutor.execute exec max_weight s = (s, 0) := by
  have h1 : single_pass exec tasks max_weight = (tasks, 0) := by
    rcases h with h | h
    · subst h
      simp [single_pass]
    · subst h
      simp [single_pass]
  refine ⟨h1, ?_⟩
  intro s hs
  cases s with
  | mk l =>
    simp only at hs
    subst hs
    simp [SinglePassExecutor.execute, h1]

/-- Witness for the C2 theorem at a concrete queue and zero budget. -/
theorem single_pass_trivial_short_circuit_witness :
    single_pass (fun (_t : Nat) (c : Nat) => (none, c)) [1, 2, 3] 0 =
      ([1, 2, 3], 0) ∧
    SinglePassExecutor.execute (fun (_t : Nat) (c : Nat) => (none, c)) 0
      ⟨[1, 2, 3]⟩ = (⟨[1, 2, 3]⟩, 0) := by
  have h := single_pass_trivial_short_circuit
    (fun (_t : Nat) (c : Nat) => (none, c)) [1, 2, 3] 0 (Or.inr rfl)
  exact ⟨h.1, h.2 ⟨[1, 2, 3]⟩ rfl⟩

/-- C4: the stateful `execute` is exactly the pure `single_pass` driver
applied to the current queue under the provider's cap: the new queue is
the survivor list and the returned weight is the driver's consumed
weight. -/
theorem execute_refines_single_pass (exec : T → Nat → Option T × Nat)
    (max_weight : Nat) (s : SinglePassExecutor T) :
    SinglePassExecutor.execute exec max_weight s =
      (⟨(single_pass exec s.tasks max_weight).1⟩,
        (single_pass exec s.tasks max_weight).2) := rfl

/-- C5: one `execute` step of the reference task computes the target
(full weight when `half = 0`, otherwise half the weight with `half`
decremented even when nothing is consumed), consumes `min target cap` in
greedy mode and all-or-nothing in non-greedy mode, deducts the consumed
weight, and survives exactly when weight remains. -/
theorem task_execute_characterization (t : Task) (cap : Nat) :
    Task.execute t cap =
      (let target := if t.half = 0 then t.weight else t.weight / 2
       let nextHalf := if t.half = 0 then 0 else t.half - 1
       let consumed := if t.greedy then min target cap
         else if target ≤ cap then target else 0
       let nextWeight := t.weight - consumed
       (if 0 < nextWeight then
          some ⟨nextWeight, nextHalf, t.greedy⟩
        else none, consumed)) := by
  cases t with
  | mk w h g =>
    cases g <;>
      simp only [Task.execute, Task.consume, Task.maybeDestroy] <;>
      by_cases hh : h = 0 <;>
      simp only [hh, if_true, if_false, reduceIte] <;>
      split_ifs <;>
      simp_all <;>
      omega

/-- C9: consumption of the reference task is monotone in the offered cap,
for every task value (greedy or not, any `half`). -/
theorem task_consumption_monotone (t : Task) (c1 c2 : Nat)
    (h : c1 ≤ c2) : (Task.execute t c1).2 ≤ (Task.execute t c2).2 := by
  have con : ∀ (u : Task) (a : Nat),
      (Task.consume u a c1).2 ≤ (Task.consume u a c2).2 := by
    intro u a
    simp only [Task.consume]
    split_ifs <;> simp <;> omega
  cases hh : t.half with
  | zero => simpa [Task.execute, hh] using con t t.weight
  | succ k =>
    simpa [Task.execute, hh] using
      con { t with half := t.half - 1 } (t.weight / 2)

/-- Witness for the C9 theorem: a non-greedy task under caps 3 and 12. -/
theorem task_consumption_monotone_witness :
    (3 : Nat) ≤ 12 ∧
      (Task.execute ⟨10, 0, false⟩ 3).2 ≤ (Task.execute ⟨10, 0, false⟩ 12).2 :=
  ⟨by decide, task_consumption_monotone ⟨10, 0, false⟩ 3 12 (by decide)⟩

/-! Helper lemmas about `findPos`, the embedding of `position`. -/

/-- The position probe fails exactly on absent elements. -/
theorem findPos_eq_none_iff [DecidableEq T] (t : T) (l : List T) :
    findPos t l = none ↔ t ∉ l := by
  induction l with
  | nil => simp [findPos]
  | cons x xs ih =>
    by_cases hx : x = t
    · subst hx
      simp [findPos]
    · simp [findPos, hx, ih, Ne.symm hx]

/-- The position returned by the probe is within bounds. -/
theorem findPos_lt_length [DecidableEq T] (t : T) (l : List T) (i : Nat)
    (h : findPos t l = some i) : i < l.length := by
  induction l generalizing i with
  | nil => simp [findPos] at h
  | cons x xs ih =>
    simp only [List.length_cons]
    by_cases hx : x = t
    · simp [findPos, hx] at h
      omega
    · simp only [findPos, if_neg hx, Option.map_eq_some'] at h
      obtain ⟨j, hj, rfl⟩ := h
      have := ih j hj
      omega

/-- On a list not containing `t`, appending `t` makes the probe find
exactly the appended position. -/
theorem findPos_append_self [DecidableEq T] (t : T) (l : List T)
    (h : t ∉ l) : findPos t (l ++ [t]) = some l.length := by
  induction l with
  | nil => simp [findPos]
  | cons x xs ih =>
    simp only [List.mem_cons, not_or] at h
    have hx : x ≠ t := fun hxt => h.1 hxt.symm
    simp [findPos, hx, ih h.2]

/-- The probe ignores everything after the first occurrence. -/
theorem findPos_append_of_mem [DecidableEq T] (t : T) (l l2 : List T)
    (h : t ∈ l) : findPos t (l ++ l2) = findPos t l := by
  induction l with
  | nil => simp at h
  | cons x xs ih =>
    by_cases hx : x = t
    · simp [findPos, hx]
    · have : t ∈ xs := by
        rcases List.mem_cons.mp h with h1 | h1
        · exact absurd h1.symm hx
        · exact h1
      simp [findPos, hx, ih this]

/-- Erasing the appended index restores the original list. -/
theorem eraseIdx_append_self (l : List T) (t : T) :
    (l ++ [t]).eraseIdx l.length = l := by
  induction l with
  | nil => rfl
  | cons x xs ih => simpa [List.eraseIdx] using ih

/-- C8: `remove` deletes exactly the first queue element equal to `t`,
keeping the rest in relative order, and is a no-op when `t` is absent. -/
theorem remove_first_occurrence [DecidableEq T]
    (s : SinglePassExecutor T) (t : T) :
    (t ∉ s.tasks → s.remove t = s) ∧
    (t ∈ s.tasks → ∃ pre post, s.tasks = pre ++ t :: post ∧ t ∉ pre ∧
      (s.remove t).tasks = pre ++ post) := by
  constructor
  · intro habs
    have : findPos t s.tasks = none := (findPos_eq_none_iff t s.tasks).mpr habs
    simp [SinglePassExecutor.remove, this]
  · intro hmem
    cases s with
    | mk l =>
      simp only at hmem ⊢
      induction l with
      | nil => simp at hmem
      | cons x xs ih =>
        by_cases hx : x = t
        · subst hx
          refine ⟨[], xs, rfl, by simp, ?_⟩
          simp [SinglePassExecutor.remove, findPos, List.eraseIdx]
        · have hmem2 : t ∈ xs := by
            rcases List.mem_cons.mp hmem with h1 | h1
            · exact absurd h1.symm hx
            · exact h1
          obtain ⟨pre, post, hsplit, hpre, hres⟩ := ih hmem2
          cases hfind : findPos t xs with
          | none => exact absurd hmem2 ((findPos_eq_none_iff t xs).mp hfind)
          | some i =>
            refine ⟨x :: pre, post, by simp [hsplit], ?_, ?_⟩
            · simp only [List.mem_cons, not_or]
              exact ⟨fun h1 => hx h1.symm, hpre⟩
            · simp only [SinglePassExecutor.remove, hfind, findPos,
                if_neg hx, Option.map_some] at hres ⊢
              simpa [List.eraseIdx] using hres

/-- Witness for the C8 theorem: removing an absent value is a no-op, and
removing a present value deletes its first occurrence. -/
theorem remove_first_occurrence_witness :
    ((2 : Nat) ∉ [3, 4] ∧
      (⟨[3, 4]⟩ : SinglePassExecutor Nat).remove 2 = ⟨[3, 4]⟩) ∧
    ((3 : Nat) ∈ [3, 4] ∧ ∃ pre post, [3, 4] = pre ++ 3 :: post ∧
      (3 : Nat) ∉ pre ∧
      ((⟨[3, 4]⟩ : SinglePassExecutor Nat).remove 3).tasks = pre ++ post) :=
  ⟨⟨by decide, (remove_first_occurrence ⟨[3, 4]⟩ 2).1 (by decide)⟩,
    ⟨by decide, (remove_first_occurrence ⟨[3, 4]⟩ 3).2 (by decide)⟩⟩

/-- C10: appending `t` and then removing `t` restores the queue exactly
when `t` was absent; when `t` was already present, the composite instead
deletes the first old occurrence and leaves the new copy at the tail. -/
theorem add_then_remove [DecidableEq T]
    (s : SinglePassExecutor T) (t : T) :
    (t ∉ s.tasks → (s.addTask t).remove t = s) ∧
    (t ∈ s.tasks →
      ((s.addTask t).remove t).tasks = (s.remove t).tasks ++ [t]) := by
  constructor
  · intro habs
    cases s with
    | mk l =>
      simp only at habs
      have hfind : findPos t (l ++ [t]) = some l.length :=
        findPos_append_self t l habs
      simp [SinglePassExecutor.remove, SinglePassExecutor.addTask, hfind,
        eraseIdx_append_self]
  · intro hmem
    cases s with
    | mk l =>
      simp only at hmem
      cases hfind : findPos t l with
      | none => exact absurd hmem ((findPos_eq_none_iff t l).mp hfind)
      | some i =>
        have hlt : i < l.length := findPos_lt_length t l i hfind
        have hfind2 : findPos t (l ++ [t]) = some i := by
          rw [findPos_append_of_mem t l [t] hmem, hfind]
        simp [SinglePassExecutor.remove, SinglePassExecutor.addTask,
          hfind, hfind2, List.eraseIdx_append_of_lt_length hlt]

/-- Witness for the C10 theorem: the round trip at an absent value, and
the shifted form at a present value. -/
theorem add_then_remove_witness :
    ((3 : Nat) ∉ [1, 2] ∧
      ((⟨[1, 2]⟩ : SinglePassExecutor Nat).addTask 3).remove 3 = ⟨[1, 2]⟩) ∧
    ((1 : Nat) ∈ [1, 2, 1] ∧
      (((⟨[1, 2, 1]⟩ : SinglePassExecutor Nat).addTask 1).remove 1).tasks =
        ((⟨[1, 2, 1]⟩ : SinglePassExecutor Nat).remove 1).tasks ++ [1]) :=
  ⟨⟨by decide, (add_then_remove ⟨[1, 2]⟩ 3).1 (by decide)⟩,
    ⟨by decide, (add_then_remove ⟨[1, 2, 1]⟩ 1).2 (by decide)⟩⟩

/-- Statement-side walk that invokes `exec` on every task unconditionally,
threading the budget through saturating subtraction and keeping the
`some` survivors; used to describe the invoked prefix of `single_pass`. -/
def execAll (exec : T → Nat → Option T × Nat) :
    List T → Nat → List T × Nat
  | [], budget => ([], budget)
  | t :: ts, budget =>
    let step := exec t budget
    let r := execAll exec ts (budget - step.2)
    (match step.1 with
      | some t2 => t2 :: r.1
      | none => r.1, r.2)

/-- The single-pass walk splits the queue at the point where the budget
reached zero: an invoked prefix (processed by `execAll` while the budget
was nonzero) followed by the untouched tail. -/
theorem singlePassGo_split (exec : T → Nat → Option T × Nat)
    (ts : List T) (w : Nat) :
    ∃ k, k ≤ ts.length ∧
      (singlePassGo exec ts w).1 =
        (execAll exec (ts.take k) w).1 ++ ts.drop k ∧
      (∀ i, i < k → (execAll exec (ts.take i) w).2 ≠ 0) ∧
      (k = ts.length ∨ (execAll exec (ts.take k) w).2 = 0) := by
  induction ts generalizing w with
  | nil =>
    exact ⟨0, Nat.le_refl _, by simp [singlePassGo, execAll], by omega,
      Or.inl rfl⟩
  | cons t ts ih =>
    by_cases hw : w = 0
    · subst hw
      refine ⟨0, Nat.zero_le _, ?_, by omega, Or.inr rfl⟩
      simp [singlePassGo_zero, execAll]
    · obtain ⟨k, hkle, heq, hpos, hend⟩ := ih (w - (exec t w).2)
      refine ⟨k + 1, by simpa using Nat.succ_le_succ hkle, ?_, ?_, ?_⟩
      · simp only [singlePassGo, if_neg hw, List.take_succ_cons,
          List.drop_succ_cons, execAll]
        cases hstep : (exec t w).1 <;> simp [heq]
      · intro i hi
        cases i with
        | zero => simpa [execAll] using hw
        | succ j =>
          have hj : j < k := by omega
          simpa [execAll] using hpos j hj
      · rcases hend with hend | hend
        · exact Or.inl (by simp [hend])
        · exact Or.inr (by simpa [execAll] using hend)

/-- C3: the surviving list of `single_pass` is the `some`-survivors of the
invoked prefix (each task of it reached with a nonzero remaining budget)
followed by the untouched tail past the point where the budget reached
zero, and it is never longer than the input queue. -/
theorem single_pass_survivor_structure (exec : T → Nat → Option T × Nat)
    (tasks : List T) (max_weight : Nat) :
    (single_pass exec tasks max_weight).1.length ≤ tasks.length ∧
    ∃ k, k ≤ tasks.length ∧
      (single_pass exec tasks max_weight).1 =
        (execAll exec (tasks.take k) max_weight).1 ++ tasks.drop k ∧
      (∀ i, i < k → (execAll exec (tasks.take i) max_weight).2 ≠ 0) ∧
      (k = tasks.length ∨
        (execAll exec (tasks.take k) max_weight).2 = 0) := by
  by_cases hcond : tasks.isEmpty || max_weight == 0
  · have hres : single_pass exec tasks max_weight = (tasks, 0) := by
      simp [single_pass, hcond]
    rcases Bool.or_eq_true_iff.mp hcond with h | h
    · have hnil : tasks = [] := List.isEmpty_iff.mp h
      subst hnil
      exact ⟨by simp [hres], 0, Nat.le_refl _, by simp [hres, execAll],
        by omega, Or.inl rfl⟩
    · have hzero : max_weight = 0 := by simpa using h
      subst hzero
      exact ⟨by simp [hres], 0, Nat.zero_le _, by simp [hres, execAll],
        by omega, Or.inr rfl⟩
  · have hres : single_pass exec tasks max_weight =
        ((singlePassGo exec tasks max_weight).1,
          max_weight - (singlePassGo exec tasks max_weight).2) := by
      simp [single_pass, hcond]
    refine ⟨by simpa [hres] using singlePassGo_length_le exec tasks max_weight, ?_⟩
    obtain ⟨k, hkle, heq, hpos, hend⟩ :=
      singlePassGo_split exec tasks max_weight
    exact ⟨k, hkle, by simpa [hres] using heq, hpos, hend⟩

/-! Lemmas about the reference task family `half = 0`, `greedy = true`. -/

/-- One step of a full-weight greedy task: consume `min weight cap` and
survive exactly when the cap was strictly smaller than the weight. -/
theorem task_execute_family (t : Task) (ht : t.half = 0)
    (hg : t.greedy = true) (c : Nat) :
    Task.execute t c =
      (if c < t.weight then some ⟨t.weight - c, 0, true⟩ else none,
        min t.weight c) := by
  cases t with
  | mk w h g =>
    simp only at ht hg
    subst ht
    subst hg
    simp only [Task.execute, Task.consume, Task.maybeDestroy]
    split_ifs <;> simp_all <;> omega

/-- A surviving task never gains weight, for any reference task value. -/
theorem task_execute_weight_le (t : Task) (c : Nat) (t2 : Task)
    (h : (Task.execute t c).1 = some t2) : t2.weight ≤ t.weight := by
  cases t with
  | mk w hh g =>
    simp only [Task.execute, Task.consume, Task.maybeDestroy] at h
    split_ifs at h <;>
      first
        | exact Option.noConfusion h
        | (injection h with h2
           subst h2
           simp only
           omega)

/-- The walk never increases the total remaining weight. -/
theorem singlePassGo_sumWeights_le (ts : List Task) (c : Nat) :
    sumWeights (singlePassGo Task.execute ts c).1 ≤ sumWeights ts := by
  induction ts generalizing c with
  | nil => simp [singlePassGo]
  | cons t ts ih =>
    by_cases hc : c = 0
    · subst hc
      simp [singlePassGo_zero]
    · cases hstep : (Task.execute t c).1 with
      | some t2 =>
        have hle := task_execute_weight_le t c t2 hstep
        have hih := ih (c - (Task.execute t c).2)
        simp only [singlePassGo, if_neg hc, hstep, sumWeights,
          List.map_cons, List.sum_cons] at *
        omega
      | none =>
        have hih := ih (c - (Task.execute t c).2)
        simp only [singlePassGo, if_neg hc, hstep, sumWeights,
          List.map_cons, List.sum_cons] at *
        omega

/-- With a nonzero budget, a family queue of positive total weight loses
weight strictly in one walk. -/
theorem singlePassGo_family_decrease (ts : List Task) (c : Nat)
    (hfam : ∀ t ∈ ts, t.half = 0 ∧ t.greedy = true) (hc : c ≠ 0)
    (hsum : 0 < sumWeights ts) :
    sumWeights (singlePassGo Task.execute ts c).1 < sumWeights ts := by
  induction ts generalizing c with
  | nil => simp [sumWeights] at hsum
  | cons t ts ih =>
    have htf := hfam t (by simp)
    have hexec := task_execute_family t htf.1 htf.2 c
    by_cases hw0 : t.weight = 0
    · have h1 : (Task.execute t c).1 = none := by
        rw [hexec]
        simp [hw0]
      have h2 : (Task.execute t c).2 = 0 := by
        rw [hexec]
        simp [hw0]
      have hsum2 : 0 < sumWeights ts := by
        simp only [sumWeights, List.map_cons, List.sum_cons, hw0] at hsum
        simpa [sumWeights] using hsum
      have hih := ih c (fun u hu => hfam u (List.mem_cons_of_mem t hu))
        hc hsum2
      simp only [singlePassGo, if_neg hc, h1, h2, Nat.sub_zero, sumWeights,
        List.map_cons, List.sum_cons] at *
      omega
    · by_cases hcw : c < t.weight
      · have h1 : (Task.execute t c).1 = some ⟨t.weight - c, 0, true⟩ := by
          rw [hexec]
          simp [hcw]
        have h2 : (Task.execute t c).2 = c := by
          rw [hexec]
          simp [Nat.min_eq_right (Nat.le_of_lt hcw)]
        simp only [singlePassGo, if_neg hc, h1, h2, Nat.sub_self,
          singlePassGo_zero, sumWeights, List.map_cons, List.sum_cons]
        simp only [sumWeights] at *
        omega
      · have hcw2 : t.weight ≤ c := Nat.le_of_not_lt hcw
        have h1 : (Task.execute t c).1 = none := by
          rw [hexec]
          simp [hcw]
        have h2 : (Task.execute t c).2 = t.weight := by
          rw [hexec]
          simp [Nat.min_eq_left hcw2]
        have hrest := singlePassGo_sumWeights_le ts (c - t.weight)
        simp only [singlePassGo, if_neg hc, h1, h2, sumWeights,
          List.map_cons, List.sum_cons] at *
        omega

/-- With a nonzero budget, a family queue of zero total weight is fully
drained in one walk. -/
theorem singlePassGo_family_zero_sum (ts : List Task) (c : Nat)
    (hfam : ∀ t ∈ ts, t.half = 0 ∧ t.greedy = true) (hc : c ≠ 0)
    (hsum : sumWeights ts = 0) :
    (singlePassGo Task.execute ts c).1 = [] := by
  induction ts generalizing c with
  | nil => simp [singlePassGo]
  | cons t ts ih =>
    have htf := hfam t (by simp)
    have hw0 : t.weight = 0 := by
      simp only [sumWeights, List.map_cons, List.sum_cons] at hsum
      omega
    have hexec := task_execute_family t htf.1 htf.2 c
    have h1 : (Task.execute t c).1 = none := by
      rw [hexec]
      simp [hw0]
    have h2 : (Task.execute t c).2 = 0 := by
      rw [hexec]
      simp [hw0]
    have hsum2 : sumWeights ts = 0 := by
      simp only [sumWeights, List.map_cons, List.sum_cons, hw0] at hsum
      simpa [sumWeights] using hsum
    simp only [singlePassGo, if_neg hc, h1, h2, Nat.sub_zero]
    exact ih c (fun u hu => hfam u (List.mem_cons_of_mem t hu)) hc hsum2

/-- The walk keeps a family queue inside the family. -/
theorem singlePassGo_family_mem (ts : List Task) (c : Nat)
    (hfam : ∀ t ∈ ts, t.half = 0 ∧ t.greedy = true) :
    ∀ t2 ∈ (singlePassGo Task.execute ts c).1,
      t2.half = 0 ∧ t2.greedy = true := by
  induction ts generalizing c with
  | nil => simp [singlePassGo]
  | cons t ts ih =>
    by_cases hc : c = 0
    · subst hc
      rw [singlePassGo_zero]
      exact hfam
    · have htf := hfam t (by simp)
      have hexec := task_execute_family t htf.1 htf.2 c
      have hfam2 : ∀ u ∈ ts, u.half = 0 ∧ u.greedy = true :=
        fun u hu => hfam u (by simp [hu])
      cases hstep : (Task.execute t c).1 with
      | some t2 =>
        have ht2 : t2.half = 0 ∧ t2.greedy = true := by
          rw [hexec] at hstep
          split_ifs at hstep
          injection hstep with h2
          subst h2
          exact ⟨rfl, rfl⟩
        intro u hu
        simp only [singlePassGo, if_neg hc, hstep, List.mem_cons] at hu
        rcases hu with hu | hu
        · subst hu
          exact ht2
        · exact ih (c - (Task.execute t c).2) hfam2 u hu
      | none =>
        intro u hu
        simp only [singlePassGo, if_neg hc, hstep] at hu
        exact ih (c - (Task.execute t c).2) hfam2 u hu

/-- Iterating `single_pass` under a fixed nonzero budget reaches the empty
queue within any bound exceeding the total remaining weight. -/
theorem single_pass_family_iterate (w : Nat) (hw : w ≠ 0) :
    ∀ n (ts : List Task), (∀ t ∈ ts, t.half = 0 ∧ t.greedy = true) →
      sumWeights ts < n →
      (fun l => (single_pass Task.execute l w).1)^[n] ts = [] := by
  intro n
  induction n with
  | zero =>
    intro ts _ hlt
    omega
  | succ n ih =>
    intro ts hfam hlt
    rw [Function.iterate_succ_apply]
    have hfix : (fun l => (single_pass Task.execute l w).1) [] = [] := by
      simp [single_pass]
    by_cases hsum : sumWeights ts = 0
    · have hstep : (single_pass Task.execute ts w).1 = [] := by
        cases ts with
        | nil => simp [single_pass]
        | cons t ts =>
          have hcond : ¬((t :: ts).isEmpty || w == 0) := by
            simp [hw]
          simp only [single_pass, hcond, Bool.false_eq_true, if_false]
          exact singlePassGo_family_zero_sum (t :: ts) w hfam hw hsum
      simpa [hstep] using Function.iterate_fixed hfix n
    · have hne : ts ≠ [] := by
        intro hnil
        subst hnil
        simp [sumWeights] at hsum
      have hcond : ¬(ts.isEmpty || w == 0) := by
        simp [hw, List.isEmpty_iff, hne]
      have hstep : (single_pass Task.execute ts w).1 =
          (singlePassGo Task.execute ts w).1 := by
        simp [single_pass, hcond]
      have hdec := singlePassGo_family_decrease ts w hfam hw
        (Nat.pos_of_ne_zero hsum)
      have hfam2 := singlePassGo_family_mem ts w hfam
      have := ih (singlePassGo Task.execute ts w).1 hfam2 (by omega)
      simpa [hstep] using this

/-- C6 counterexample: the claim as stated fails on a nonempty family
queue containing one zero-weight task — the call empties the queue but
the sum of remaining weights stays `0`, not strictly decreasing. -/
theorem family_strict_decrease_counterexample :
    ¬ ∀ (ts : List Task) (w : Nat),
        (∀ t ∈ ts, t.half = 0 ∧ t.greedy = true) → 0 < w → ts ≠ [] →
        sumWeights (single_pass Task.execute ts w).1 < sumWeights ts := by
  intro h
  exact absurd (h [⟨0, 0, true⟩] 1 (by decide) (by decide) (by decide))
    (by decide)

/-- C6 (amended): for a family queue (`half = 0`, `greedy = true`) under a
fixed positive quota, `single_pass` strictly decreases the total
remaining weight whenever that total is nonzero, a call at total zero
empties the queue, the empty queue yields consumption `0`, and hence
repeated execution terminates with an empty queue within
`sumWeights ts + 1` calls. -/
theorem single_pass_family_termination (w : Nat) (ts : List Task)
    (hw : 0 < w) (hfam : ∀ t ∈ ts, t.half = 0 ∧ t.greedy = true) :
    (0 < sumWeights ts →
      sumWeights (single_pass Task.execute ts w).1 < sumWeights ts) ∧
    (sumWeights ts = 0 → (single_pass Task.execute ts w).1 = []) ∧
    single_pass Task.execute ([] : List Task) w = ([], 0) ∧
    (fun l => (single_pass Task.execute l w).1)^[sumWeights ts + 1] ts
      = [] := by
  have hw2 : w ≠ 0 := Nat.pos_iff_ne_zero.mp hw
  refine ⟨?_, ?_, by simp [single_pass], ?_⟩
  · intro hsum
    have hne : ts ≠ [] := by
      intro hnil
      subst hnil
      simp [sumWeights] at hsum
    have hcond : ¬(ts.isEmpty || w == 0) := by
      simp [hw2, List.isEmpty_iff, hne]
    have hstep : (single_pass Task.execute ts w).1 =
        (singlePassGo Task.execute ts w).1 := by
      simp [single_pass, hcond]
    rw [hstep]
    exact singlePassGo_family_decrease ts w hfam hw2 hsum
  · intro hsum
    cases ts with
    | nil => simp [single_pass]
    | cons t ts =>
      have hcond : ¬((t :: ts).isEmpty || w == 0) := by
        simp [hw2]
      simp only [single_pass, hcond, Bool.false_eq_true, if_false]
      exact singlePassGo_family_zero_sum (t :: ts) w hfam hw2 hsum
  · exact single_pass_family_iterate w hw2 (sumWeights ts + 1) ts hfam
      (by omega)

/-- Witness for the amended C6 theorem at quota `7` and queue `[10, 10]`. -/
theorem single_pass_family_termination_witness :
    (0 : Nat) < 7 ∧
    (∀ t ∈ [(⟨10, 0, true⟩ : Task), ⟨10, 0, true⟩],
      t.half = 0 ∧ t.greedy = true) ∧
    ((0 < sumWeights [(⟨10, 0, true⟩ : Task), ⟨10, 0, true⟩] →
      sumWeights (single_pass Task.execute
        [(⟨10, 0, true⟩ : Task), ⟨10, 0, true⟩] 7).1 <
        sumWeights [(⟨10, 0, true⟩ : Task), ⟨10, 0, true⟩]) ∧
    (sumWeights [(⟨10, 0, true⟩ : Task), ⟨10, 0, true⟩] = 0 →
      (single_pass Task.execute
        [(⟨10, 0, true⟩ : Task), ⟨10, 0, true⟩] 7).1 = []) ∧
    single_pass Task.execute ([] : List Task) 7 = ([], 0) ∧
    (fun l => (single_pass Task.execute l 7).1)^[
      sumWeights [(⟨10, 0, true⟩ : Task), ⟨10, 0, true⟩] + 1]
      [(⟨10, 0, true⟩ : Task), ⟨10, 0, true⟩] = []) :=
  ⟨by decide, by decide,
    single_pass_family_termination 7 [⟨10, 0, true⟩, ⟨10, 0, true⟩]
      (by decide) (by decide)⟩

/-- Four little-endian bytes decode to their weighted sum. -/
theorem decodeLE_four (a b c d : Nat) (r : List Nat) :
    decodeLE 4 (a :: b :: c :: d :: r) =
      some (a + (b + (c + (d + 0 * 256) * 256) * 256) * 256, r) := rfl

/-- Round trip of the compact `u32` codec: decoding an encoded count reads
exactly the count and leaves the remaining bytes untouched. -/
theorem compactDecode_compactEncode (n : Nat) (rest : List Nat)
    (h : n < 4294967296) :
    compactDecode (compactEncode n ++ rest) = some (n, rest) := by
  by_cases h0 : n < 64
  · have hb : n * 4 % 4 = 0 := by omega
    have hd : n * 4 / 4 = n := by omega
    simp [compactEncode, h0, compactDecode, hb, hd]
  · by_cases h1 : n < 16384
    · have hb : (n * 4 + 1) % 256 % 4 = 1 := by omega
      simp [compactEncode, h0, h1, compactDecode, hb]
      omega
    · by_cases h2 : n < 1073741824
      · have hb : (n * 4 + 2) % 256 % 4 = 2 := by omega
        simp [compactEncode, h0, h1, h2, compactDecode, hb]
        omega
      · simp [compactEncode, h0, h1, h2, compactDecode, decodeLE_four]
        omega

/-- C7: the executor's encoding is byte-identical to the encoding of its
inner task vector (the phantom marker contributes no bytes), and the
length probe reads exactly the queue length from the compact prefix. -/
theorem executor_encoding_length_probe (taskEnc : T → List Nat)
    (s : SinglePassExecutor T) (h : s.tasks.length < 4294967296) :
    encodeExecutor taskEnc s = encodeVec taskEnc s.tasks ∧
    decodeLength (encodeExecutor taskEnc s) = some s.tasks.length := by
  constructor
  · simp [encodeExecutor, encodePhantom]
  · have hrt := compactDecode_compactEncode s.tasks.length
      ((s.tasks.map taskEnc).flatten ++ encodePhantom) h
    simp only [encodeExecutor, encodeVec, List.append_assoc]
    simp [decodeLength, hrt]

/-- Witness for the C7 theorem at a concrete two-task queue. -/
theorem executor_encoding_length_probe_witness :
    ((⟨[5, 7]⟩ : SinglePassExecutor Nat)).tasks.length < 4294967296 ∧
    encodeExecutor (fun x => [x % 256]) (⟨[5, 7]⟩ : SinglePassExecutor Nat)
      = encodeVec (fun x => [x % 256]) [5, 7] ∧
    decodeLength (encodeExecutor (fun x => [x % 256])
      (⟨[5, 7]⟩ : SinglePassExecutor Nat)) = some 2 :=
  ⟨by decide,
    (executor_encoding_length_probe (fun x => [x % 256]) ⟨[5, 7]⟩
      (by decide)).1,
    (executor_encoding_length_probe (fun x => [x % 256]) ⟨[5, 7]⟩
      (by decide)).2⟩

end Substrate
